import Mathlib

/-!
Verification of the `UniqueStoreDictionary` facade from
`vespalib/src/vespa/vespalib/datastore/unique_store_dictionary.hpp`.

The facade sits on an ordered B-tree dictionary with a copy-on-write freezing
allocator and generation-based hold lists; those underlying sources are not
part of this fragment, so the ordered container and the generation machinery
are modelled from the specification: the live structure is the list of handles
in ascending traversal order, a frozen view is the snapshot list published by
the last `freeze`, and hold lists keep retired items tagged with the
generation at which they were transferred.  The facade operations (`add`,
`find`, `remove`, `move_entries`, `build`, `get_num_uniques`, `freeze`,
`transfer_hold_lists`, `trim_hold_lists`, `get_frozen_root`, `foreach_key`)
are translated directly from the source.
-/

/-- An `EntryRef` is the opaque handle into the external value arena.  The
default-constructed `EntryRef()` has raw value 0; it is invalid, doubles as
the probe placeholder handed to comparators by `add`/`find`, and is the
"not found" sentinel returned by `find`. -/
abbrev EntryRef := Nat

/-- Translation of the default-constructed `EntryRef()`. -/
def EntryRef.invalid : EntryRef := 0

/-- Translation of `EntryRef::valid()`: true when the raw value is nonzero. -/
def EntryRef.valid (r : EntryRef) : Bool := r != 0

/-- Translation of `generation_t`: a monotonically increasing epoch counter. -/
abbrev generation_t := Nat

/-- Modelled from the spec: the state of the ordered dictionary (a B-tree in
the repository, whose sources are outside this fragment) together with its
allocator-side generation bookkeeping.  `live` is the mutable ordered
structure, as the list of handles in ascending traversal order; `frozen` is
the snapshot published by the last `freeze`; `holdActive` is the bucket of
items retired since the last `transfer_hold_lists`; `holdLists` holds
transferred items tagged with their retiring generation; `reclaimed`
accumulates every item ever handed back to the arena by `trim_hold_lists`. -/
structure Dict where
  live : List EntryRef
  frozen : List EntryRef
  holdActive : List EntryRef
  holdLists : List (generation_t × EntryRef)
  reclaimed : List EntryRef
deriving Repr, DecidableEq

/-- An initially empty dictionary. -/
def emptyDict : Dict := ⟨[], [], [], [], []⟩

/-- Translation of `UniqueStoreAddResult`: the handle and whether it was
freshly inserted. -/
structure UniqueStoreAddResult where
  ref : EntryRef
  inserted : Bool
deriving Repr, DecidableEq

/-- Modelled from the spec: `_dict.lowerBound(key, comp)` locates the first
position (in ascending traversal order) whose entry is not less than `key`
under the comparator; the index equals the length when every entry is less
than `key` (an invalid iterator). -/
def lowerBoundIdx (comp : EntryRef → EntryRef → Bool) (key : EntryRef) :
    List EntryRef → Nat
  | [] => 0
  | x :: xs => if comp x key then lowerBoundIdx comp key xs + 1 else 0

/-- Modelled from the spec: `_dict.insert(itr, ref, data)` inserts at the
iterator position, shifting no other entry. -/
def insertAt (i : Nat) (x : EntryRef) (l : List EntryRef) : List EntryRef :=
  l.take i ++ x :: l.drop i

namespace UniqueStoreDictionary

/-- Translation of `UniqueStoreDictionary::add`.  The third component counts
the invocations of the `insertEntry` (allocate) capability; `insertEntry` is
the handle the arena returns when it is invoked. -/
def add (comp : EntryRef → EntryRef → Bool) (insertEntry : EntryRef) (d : Dict) :
    UniqueStoreAddResult × Dict × Nat :=
  match d.live[lowerBoundIdx comp EntryRef.invalid d.live]? with
  | some k =>
      if comp EntryRef.invalid k then
        (⟨insertEntry, true⟩,
          { d with live := insertAt (lowerBoundIdx comp EntryRef.invalid d.live) insertEntry d.live },
          1)
      else
        (⟨k, false⟩, d, 0)
  | none =>
      (⟨insertEntry, true⟩,
        { d with live := insertAt (lowerBoundIdx comp EntryRef.invalid d.live) insertEntry d.live },
        1)

/-- Translation of `UniqueStoreDictionary::find`. -/
def find (comp : EntryRef → EntryRef → Bool) (d : Dict) : EntryRef :=
  match d.live[lowerBoundIdx comp EntryRef.invalid d.live]? with
  | some k =>
      if comp EntryRef.invalid k then EntryRef.invalid else k
  | none => EntryRef.invalid

/-- Translation of `UniqueStoreDictionary::remove`.  The two `assert`
statements of the source are rendered as the `none` outcome: a fatal fault
raised before any mutation is committed.  On success the located entry is
excised and the removed item is retired onto the active hold bucket. -/
def remove (comp : EntryRef → EntryRef → Bool) (ref : EntryRef) (d : Dict) :
    Option Dict :=
  if EntryRef.valid ref then
    match d.live[lowerBoundIdx comp ref d.live]? with
    | some k =>
        if k = ref then
          some { d with live := d.live.eraseIdx (lowerBoundIdx comp ref d.live),
                        holdActive := ref :: d.holdActive }
        else none
    | none => none
  else none

/-- Helper for `move_entries`: walks the live entries in ascending order.
Returns the rewritten entry list, the trace of arguments passed to the
relocate capability (in call order), and the trace of entries that were
thawed and rewritten because relocation returned a different handle. -/
def moveLoop (mv : EntryRef → EntryRef) :
    List EntryRef → List EntryRef × List EntryRef × List EntryRef
  | [] => ([], [], [])
  | k :: ks =>
      let rest := moveLoop mv ks
      (mv k :: rest.1, k :: rest.2.1,
        if mv k ≠ k then k :: rest.2.2 else rest.2.2)

/-- Translation of `UniqueStoreDictionary::move_entries` (compaction).  The
second component is the trace of `compactable.move` invocations, the third
the trace of thawed-and-rewritten entries. -/
def move_entries (mv : EntryRef → EntryRef) (d : Dict) :
    Dict × List EntryRef × List EntryRef :=
  let r := moveLoop mv d.live
  ({ d with live := r.1, holdActive := r.2.2 ++ d.holdActive }, r.2.1, r.2.2)

/-- Translation of `UniqueStoreDictionary::freeze`: publishes the live
structure as the new frozen snapshot. -/
def freeze (d : Dict) : Dict :=
  { d with frozen := d.live }

/-- Translation of `UniqueStoreDictionary::transfer_hold_lists`: items in the
active bucket move to the generation-indexed hold structure, tagged with the
supplied generation. -/
def transfer_hold_lists (generation : generation_t) (d : Dict) : Dict :=
  { d with holdActive := [],
           holdLists := d.holdLists ++ d.holdActive.map (fun r => (generation, r)) }

/-- Translation of `UniqueStoreDictionary::trim_hold_lists`: every hold-list
entry whose retiring generation is older than `firstUsed` is handed back to
the arena (appended to `reclaimed`); younger entries stay held. -/
def trim_hold_lists (firstUsed : generation_t) (d : Dict) : Dict :=
  { d with holdLists := d.holdLists.filter (fun p => decide (firstUsed ≤ p.1)),
           reclaimed := d.reclaimed ++
             (d.holdLists.filter (fun p => decide (p.1 < firstUsed))).map Prod.snd }

/-- Translation of `UniqueStoreDictionary::get_num_uniques`: the size of the
frozen view. -/
def get_num_uniques (d : Dict) : Nat :=
  d.frozen.length

/-- Translation of `UniqueStoreDictionary::get_frozen_root`: the root of the
frozen view, modelled as the snapshot list itself. -/
def get_frozen_root (d : Dict) : List EntryRef :=
  d.frozen

/-- Translation of `UniqueStoreDictionary::foreach_key`: the trace of
callback invocations when traversing the given root, in ascending order. -/
def foreach_key (root : List EntryRef) : List EntryRef :=
  root

/-- Helper for `build`: the loop body over the (handle, refcount) pairs from
index 1 on.  Returns the entries handed to the builder (in order) and the
trace of handles reported to the zero-refcount callback (in call order). -/
def buildLoop : List (EntryRef × Nat) → List EntryRef × List EntryRef
  | [] => ([], [])
  | p :: ps =>
      let rest := buildLoop ps
      if p.2 ≠ 0 then (p.1 :: rest.1, rest.2) else (rest.1, p.1 :: rest.2)

/-- Translation of `UniqueStoreDictionary::build`.  The two `assert`
statements are rendered as the `none` outcome.  On success the freshly built
structure replaces the previous live structure (whose entries are retired
onto the active hold bucket), and the second component is the trace of
`hold` (zero-refcount) callback invocations. -/
def build (refs : List EntryRef) (ref_counts : List Nat) (d : Dict) :
    Option (Dict × List EntryRef) :=
  if refs.length ≠ ref_counts.length then none
  else if refs.isEmpty then none
  else
    some ({ d with live := (buildLoop ((refs.zip ref_counts).drop 1)).1,
                   holdActive := d.live ++ d.holdActive },
          (buildLoop ((refs.zip ref_counts).drop 1)).2)

end UniqueStoreDictionary

/-- Modelled from the spec: a comparator capability is induced by the values
the handles denote.  `val` gives the denoted value of each stored handle and
`pv` the value of the virtual probe, which is presented to the comparator as
the invalid handle `EntryRef()`. -/
def probeVal (val : EntryRef → Int) (pv : Int) (r : EntryRef) : Int :=
  if r = EntryRef.invalid then pv else val r

/-- Modelled from the spec: the comparator reports less-than on the denoted
values, with the invalid handle standing for the probe. -/
def cmpOf (val : EntryRef → Int) (pv : Int) (a b : EntryRef) : Bool :=
  decide (probeVal val pv a < probeVal val pv b)

/-- A writer-thread mutation: an `add` (the probe value is the value the
arena would store, hence the value `val` assigns to the handle `allocate`
returns), or a `remove` keyed by the handle to excise. -/
inductive DictOp where
  | addOp (alloc : EntryRef)
  | removeOp (ref : EntryRef)
deriving Repr, DecidableEq

/-- A `DictOp` is well-formed when an `add` carries a valid (nonzero) handle
from the arena. -/
def DictOp.wf : DictOp → Bool
  | .addOp a => a != 0
  | .removeOp _ => true

/-- Applies one operation with the comparator induced by `val`.  A `remove`
whose precondition fails is a fatal fault; no state after it is reachable, so
it is rendered as leaving the state unchanged. -/
def applyOp (val : EntryRef → Int) (d : Dict) : DictOp → Dict
  | .addOp alloc => (UniqueStoreDictionary.add (cmpOf val (val alloc)) alloc d).2.1
  | .removeOp ref => (UniqueStoreDictionary.remove (cmpOf val (val ref)) ref d).getD d

/-- Runs a sequence of writer operations. -/
def runOps (val : EntryRef → Int) (ops : List DictOp) (d : Dict) : Dict :=
  ops.foldl (applyOp val) d

/-- Ascending traversal of `l` yields handles whose denoted values are
strictly increasing. -/
def SortedByVal (val : EntryRef → Int) (l : List EntryRef) : Prop :=
  List.Pairwise (fun a b => val a < val b) l

instance (val : EntryRef → Int) (l : List EntryRef) : Decidable (SortedByVal val l) :=
  inferInstanceAs (Decidable (List.Pairwise _ l))

/-- A well-formed dictionary state: the live structure is strictly sorted by
denoted value and never contains the invalid handle. -/
def DictInv (val : EntryRef → Int) (d : Dict) : Prop :=
  SortedByVal val d.live ∧ EntryRef.invalid ∉ d.live

theorem lowerBoundIdx_le_length (comp : EntryRef → EntryRef → Bool) (key : EntryRef) :
    ∀ l : List EntryRef, lowerBoundIdx comp key l ≤ l.length
  | [] => Nat.le_refl 0
  | x :: xs => by
      simp only [lowerBoundIdx, List.length_cons]
      split
      · exact Nat.succ_le_succ (lowerBoundIdx_le_length comp key xs)
      · exact Nat.zero_le _

theorem lowerBoundIdx_mem_take (comp : EntryRef → EntryRef → Bool) (key : EntryRef) :
    ∀ l : List EntryRef, ∀ x ∈ l.take (lowerBoundIdx comp key l), comp x key = true
  | [] => by simp
  | y :: ys => by
      simp only [lowerBoundIdx]
      split
      · next hcy =>
          intro x hx
          rw [List.take_succ_cons] at hx
          rcases List.mem_cons.mp hx with h | h
          · exact h ▸ hcy
          · exact lowerBoundIdx_mem_take comp key ys x h
      · simp

theorem lowerBoundIdx_getElem_eq_false (comp : EntryRef → EntryRef → Bool) (key : EntryRef) :
    ∀ (l : List EntryRef) (k : EntryRef),
      l[lowerBoundIdx comp key l]? = some k → comp k key = false
  | [], k => by simp
  | y :: ys, k => by
      simp only [lowerBoundIdx]
      split
      · next hcy =>
          intro hk
          rw [List.getElem?_cons_succ] at hk
          exact lowerBoundIdx_getElem_eq_false comp key ys k hk
      · next hcy =>
          intro hk
          rw [List.getElem?_cons_zero] at hk
          injection hk with hk
          subst hk
          simpa using hcy

/-- C1: for every dictionary state, comparator, and allocate capability, the
entry at the lower-bound position for the probe always compares not-less-than
the probe; when it also compares not-greater (so the comparator reports
neither less-than nor greater-than), `add` returns that existing handle with
`inserted = false`, invokes allocate zero times, and leaves the dictionary
unchanged; otherwise `add` invokes allocate exactly once, inserts the handle
it returns at the located lower-bound position, and returns that new handle
with `inserted = true`. -/
theorem add_dedup_hit_or_allocate_once (comp : EntryRef → EntryRef → Bool)
    (alloc : EntryRef) (d : Dict) :
    (∀ k, d.live[lowerBoundIdx comp EntryRef.invalid d.live]? = some k →
       comp k EntryRef.invalid = false ∧
       (comp EntryRef.invalid k = false →
         UniqueStoreDictionary.add comp alloc d = (⟨k, false⟩, d, 0)))
    ∧ ((∀ k, d.live[lowerBoundIdx comp EntryRef.invalid d.live]? = some k →
          comp EntryRef.invalid k = true) →
       UniqueStoreDictionary.add comp alloc d =
         (⟨alloc, true⟩,
          { d with live := insertAt (lowerBoundIdx comp EntryRef.invalid d.live) alloc d.live },
          1)) := by
  constructor
  · intro k hk
    refine ⟨lowerBoundIdx_getElem_eq_false comp EntryRef.invalid d.live k hk, ?_⟩
    intro hne
    simp [UniqueStoreDictionary.add, hk, hne]
  · intro hmiss
    cases hget : d.live[lowerBoundIdx comp EntryRef.invalid d.live]? with
    | none => simp [UniqueStoreDictionary.add, hget]
    | some k =>
        have := hmiss k hget
        simp [UniqueStoreDictionary.add, hget, this]

theorem add_dedup_hit_or_allocate_once_witness :
    UniqueStoreDictionary.add (cmpOf (fun n => (n : Int)) 2) 9 ⟨[1, 2, 3], [], [], [], []⟩
      = (⟨2, false⟩, ⟨[1, 2, 3], [], [], [], []⟩, 0) :=
  ((add_dedup_hit_or_allocate_once (cmpOf (fun n => (n : Int)) 2) 9
      ⟨[1, 2, 3], [], [], [], []⟩).1 2 (by decide)).2 (by decide)

/-- C3: calling `remove` with an invalid handle, or with a handle that is not
the entry at the position located by the comparator, is a fatal fault with no
mutation committed (no post-state exists); when the handle is valid and is
the entry at the located position, `remove` excises exactly that entry from
the ordered structure and retires it onto the active hold bucket. -/
theorem remove_fault_or_excise (comp : EntryRef → EntryRef → Bool)
    (ref : EntryRef) (d : Dict) :
    (ref = EntryRef.invalid → UniqueStoreDictionary.remove comp ref d = none)
    ∧ (d.live[lowerBoundIdx comp ref d.live]? ≠ some ref →
        UniqueStoreDictionary.remove comp ref d = none)
    ∧ (ref ≠ EntryRef.invalid →
       d.live[lowerBoundIdx comp ref d.live]? = some ref →
       UniqueStoreDictionary.remove comp ref d =
         some { d with live := d.live.eraseIdx (lowerBoundIdx comp ref d.live),
                       holdActive := ref :: d.holdActive }) := by
  refine ⟨?_, ?_, ?_⟩
  · intro h
    subst h
    simp [UniqueStoreDictionary.remove, EntryRef.valid, EntryRef.invalid]
  · intro hne
    by_cases h0 : ref = EntryRef.invalid
    · subst h0
      simp [UniqueStoreDictionary.remove, EntryRef.valid, EntryRef.invalid]
    · cases hget : d.live[lowerBoundIdx comp ref d.live]? with
      | none => simp [UniqueStoreDictionary.remove, EntryRef.valid, EntryRef.invalid, h0, hget]
      | some k =>
          have hk : k ≠ ref := fun he => hne (he ▸ hget)
          simp [UniqueStoreDictionary.remove, EntryRef.valid, EntryRef.invalid, h0, hget, hk]
  · intro h0 hget
    simp [UniqueStoreDictionary.remove, EntryRef.valid, EntryRef.invalid, h0, hget]
    exact h0

theorem remove_fault_or_excise_witness :
    UniqueStoreDictionary.remove (cmpOf (fun n => (n : Int)) 0) 2 ⟨[1, 2, 3], [], [], [], []⟩
      = some ⟨[1, 3], [], [2], [], []⟩ :=
  (remove_fault_or_excise (cmpOf (fun n => (n : Int)) 0) 2
      ⟨[1, 2, 3], [], [], [], []⟩).2.2 (by decide) (by decide)

theorem moveLoop_spec (mv : EntryRef → EntryRef) :
    ∀ l : List EntryRef,
      (UniqueStoreDictionary.moveLoop mv l).1 = l.map mv ∧
      (UniqueStoreDictionary.moveLoop mv l).2.1 = l ∧
      (UniqueStoreDictionary.moveLoop mv l).2.2 = l.filter (fun r => decide (mv r ≠ r))
  | [] => by simp [UniqueStoreDictionary.moveLoop]
  | k :: ks => by
      obtain ⟨h1, h2, h3⟩ := moveLoop_spec mv ks
      by_cases hk : mv k = k <;>
        simp [UniqueStoreDictionary.moveLoop, h1, h2, h3, List.filter_cons, hk]

/-- C5: `move_entries` invokes the relocate capability exactly once per live
entry, in ascending order (the call trace equals the live traversal); the
resulting live structure is the positional in-place rewrite of each entry by
the relocate capability, with no entry removed or re-inserted; the entries
thawed and rewritten are exactly those where relocation returned a different
handle; when relocation is the identity on every live entry the live
structure is unchanged and nothing is rewritten; and the frozen view is left
untouched. -/
theorem move_entries_once_per_entry_in_place (mv : EntryRef → EntryRef) (d : Dict) :
    (UniqueStoreDictionary.move_entries mv d).2.1 = d.live
    ∧ (UniqueStoreDictionary.move_entries mv d).1.live = d.live.map mv
    ∧ (UniqueStoreDictionary.move_entries mv d).2.2
        = d.live.filter (fun r => decide (mv r ≠ r))
    ∧ ((∀ r ∈ d.live, mv r = r) →
        (UniqueStoreDictionary.move_entries mv d).1.live = d.live
        ∧ (UniqueStoreDictionary.move_entries mv d).2.2 = [])
    ∧ (UniqueStoreDictionary.move_entries mv d).1.frozen = d.frozen := by
  obtain ⟨h1, h2, h3⟩ := moveLoop_spec mv d.live
  refine ⟨h2, h1, h3, ?_, rfl⟩
  intro hid
  have hmap : List.map mv d.live = d.live := by
    conv_rhs => rw [← List.map_id d.live]
    exact List.map_congr_left fun a ha => hid a ha
  constructor
  · show (UniqueStoreDictionary.moveLoop mv d.live).1 = d.live
    rw [h1, hmap]
  · show (UniqueStoreDictionary.moveLoop mv d.live).2.2 = []
    rw [h3]
    refine List.filter_eq_nil_iff.mpr ?_
    intro a ha
    simp [hid a ha]

theorem move_entries_once_per_entry_in_place_witness :
    (UniqueStoreDictionary.move_entries (fun r => r) ⟨[1, 2], [], [], [], []⟩).1.live = [1, 2]
    ∧ (UniqueStoreDictionary.move_entries (fun r => r) ⟨[1, 2], [], [], [], []⟩).2.2 = [] :=
  (move_entries_once_per_entry_in_place (fun r => r)
      ⟨[1, 2], [], [], [], []⟩).2.2.2.1 (by decide)

theorem mem_of_getElem_some {α : Type} {l : List α} {i : Nat} {a : α}
    (h : l[i]? = some a) : a ∈ l := by
  obtain ⟨hh, rfl⟩ := List.getElem?_eq_some.mp h
  exact List.getElem_mem hh

theorem buildLoop_fst_mem (r : EntryRef) :
    ∀ ps : List (EntryRef × Nat),
      r ∈ (UniqueStoreDictionary.buildLoop ps).1 ↔ ∃ c, (r, c) ∈ ps ∧ c ≠ 0
  | [] => by simp [UniqueStoreDictionary.buildLoop]
  | (a, c) :: ps => by
      have ih := buildLoop_fst_mem r ps
      by_cases hc : c = 0
      · subst hc
        simp only [UniqueStoreDictionary.buildLoop, ne_eq, not_true_eq_false, if_false, ih]
        constructor
        · rintro ⟨c2, hmem, hc2⟩
          exact ⟨c2, List.mem_cons_of_mem _ hmem, hc2⟩
        · rintro ⟨c2, hmem, hc2⟩
          rcases List.mem_cons.mp hmem with he | hmem2
          · exact absurd (congrArg Prod.snd he) hc2
          · exact ⟨c2, hmem2, hc2⟩
      · simp only [UniqueStoreDictionary.buildLoop, ne_eq, hc, not_false_eq_true, if_true,
          List.mem_cons, ih]
        constructor
        · rintro (he | ⟨c2, hmem, hc2⟩)
          · exact ⟨c, Or.inl (by simp [he]), hc⟩
          · exact ⟨c2, Or.inr hmem, hc2⟩
        · rintro ⟨c2, he | hmem, hc2⟩
          · left
            exact congrArg Prod.fst he
          · right
            exact ⟨c2, hmem, hc2⟩

theorem buildLoop_snd_mem (r : EntryRef) :
    ∀ ps : List (EntryRef × Nat),
      r ∈ (UniqueStoreDictionary.buildLoop ps).2 ↔ (r, 0) ∈ ps
  | [] => by simp [UniqueStoreDictionary.buildLoop]
  | (a, c) :: ps => by
      have ih := buildLoop_snd_mem r ps
      by_cases hc : c = 0
      · subst hc
        simp only [UniqueStoreDictionary.buildLoop, ne_eq, not_true_eq_false, if_false,
          List.mem_cons, ih, Prod.mk.injEq, and_true]
      · simp only [UniqueStoreDictionary.buildLoop, ne_eq, hc, not_false_eq_true, if_true, ih,
          List.mem_cons, Prod.mk.injEq]
        constructor
        · exact Or.inr
        · rintro (⟨_, he⟩ | hmem)
          · exact absurd he.symm hc
          · exact hmem

/-- C4: `build` faults fatally (no post-state) when the input sequences have
unequal length or are empty; otherwise it succeeds, the freshly built live
structure is exactly the one assembled from the pairs at index 1 and beyond
(index 0 skipped, the previous structure replaced), and for every index
i >= 1 the handle refs[i] ends up in the new live structure when
ref_counts[i] is nonzero and is reported through the zero-refcount callback
trace when ref_counts[i] is zero. -/
theorem build_faults_or_partitions_by_refcount (refs : List EntryRef)
    (counts : List Nat) (d : Dict) :
    ((refs.length ≠ counts.length ∨ refs = []) →
       UniqueStoreDictionary.build refs counts d = none)
    ∧ (refs.length = counts.length → refs ≠ [] →
       ∃ d2 tr, UniqueStoreDictionary.build refs counts d = some (d2, tr)
         ∧ d2.live = (UniqueStoreDictionary.buildLoop ((refs.zip counts).drop 1)).1
         ∧ tr = (UniqueStoreDictionary.buildLoop ((refs.zip counts).drop 1)).2
         ∧ (∀ i r c, 1 ≤ i → refs[i]? = some r → counts[i]? = some c →
              (c ≠ 0 → r ∈ d2.live) ∧ (c = 0 → r ∈ tr))) := by
  constructor
  · rintro (h | h)
    · simp [UniqueStoreDictionary.build, h]
    · subst h
      simp [UniqueStoreDictionary.build]
  · intro hlen hne
    have hemp : refs.isEmpty = false := List.isEmpty_eq_false.mpr hne
    have hb : UniqueStoreDictionary.build refs counts d =
        some ({ d with live := (UniqueStoreDictionary.buildLoop ((refs.zip counts).drop 1)).1,
                       holdActive := d.live ++ d.holdActive },
              (UniqueStoreDictionary.buildLoop ((refs.zip counts).drop 1)).2) := by
      simp [UniqueStoreDictionary.build, hlen, hemp]
    refine ⟨_, _, hb, rfl, rfl, ?_⟩
    intro i r c h1 hr hc
    have hzip : (refs.zip counts)[i]? = some (r, c) :=
      List.getElem?_zip_eq_some.mpr ⟨hr, hc⟩
    have hpair : ((refs.zip counts).drop 1)[i - 1]? = some (r, c) := by
      rw [List.getElem?_drop]
      have : 1 + (i - 1) = i := by omega
      rw [this]
      exact hzip
    have hmem : (r, c) ∈ (refs.zip counts).drop 1 := mem_of_getElem_some hpair
    constructor
    · intro hc0
      exact (buildLoop_fst_mem r _).mpr ⟨c, hmem, hc0⟩
    · intro hc0
      subst hc0
      exact (buildLoop_snd_mem r _).mpr hmem

theorem build_faults_or_partitions_by_refcount_witness :
    UniqueStoreDictionary.build [7, 9] [0, 3] emptyDict = none ∨
    ∃ d2 tr, UniqueStoreDictionary.build [7, 9] [0, 3] emptyDict = some (d2, tr)
      ∧ d2.live = (UniqueStoreDictionary.buildLoop (([7, 9].zip [0, 3]).drop 1)).1
      ∧ tr = (UniqueStoreDictionary.buildLoop (([7, 9].zip [0, 3]).drop 1)).2
      ∧ (∀ i r c, 1 ≤ i → [7, 9][i]? = some r → [0, 3][i]? = some c →
           (c ≠ 0 → r ∈ d2.live) ∧ (c = 0 → r ∈ tr)) :=
  Or.inr ((build_faults_or_partitions_by_refcount [7, 9] [0, 3] emptyDict).2
    (by decide) (by decide))

/-- C10: on a successful `build`, the zero-refcount callback trace holds a
handle exactly when it stands at some index i >= 1 with a zero reference
count (index 0 is never reported, even when its count is zero); and
length-one inputs satisfy the preconditions, invoke the callback zero times,
and produce an empty dictionary. -/
theorem build_zero_refcount_callback (refs : List EntryRef) (counts : List Nat)
    (d : Dict) (hlen : refs.length = counts.length) (hne : refs ≠ []) :
    ∃ d2 tr, UniqueStoreDictionary.build refs counts d = some (d2, tr)
      ∧ (∀ r, r ∈ tr ↔ ∃ i, 1 ≤ i ∧ refs[i]? = some r ∧ counts[i]? = some 0)
      ∧ (∀ (r : EntryRef) (c : Nat), UniqueStoreDictionary.build [r] [c] d
           = some ({ d with live := [], holdActive := d.live ++ d.holdActive }, [])) := by
  have hemp : refs.isEmpty = false := List.isEmpty_eq_false.mpr hne
  have hb : UniqueStoreDictionary.build refs counts d =
      some ({ d with live := (UniqueStoreDictionary.buildLoop ((refs.zip counts).drop 1)).1,
                     holdActive := d.live ++ d.holdActive },
            (UniqueStoreDictionary.buildLoop ((refs.zip counts).drop 1)).2) := by
    simp [UniqueStoreDictionary.build, hlen, hemp]
  refine ⟨_, _, hb, ?_, ?_⟩
  · intro r
    rw [buildLoop_snd_mem]
    constructor
    · intro hmem
      obtain ⟨j, hj⟩ := List.getElem?_of_mem hmem
      rw [List.getElem?_drop] at hj
      obtain ⟨hr, hc⟩ := List.getElem?_zip_eq_some.mp hj
      exact ⟨1 + j, by omega, hr, hc⟩
    · rintro ⟨i, h1, hr, hc⟩
      have hzip : (refs.zip counts)[i]? = some (r, 0) :=
        List.getElem?_zip_eq_some.mpr ⟨hr, hc⟩
      have hpair : ((refs.zip counts).drop 1)[i - 1]? = some (r, 0) := by
        rw [List.getElem?_drop]
        have : 1 + (i - 1) = i := by omega
        rw [this]
        exact hzip
      exact mem_of_getElem_some hpair
  · intro r c
    rfl

theorem build_zero_refcount_callback_witness :
    ∃ d2 tr, UniqueStoreDictionary.build [10, 20, 30] [0, 1, 0] emptyDict = some (d2, tr)
      ∧ (∀ r, r ∈ tr ↔ ∃ i, 1 ≤ i ∧ [10, 20, 30][i]? = some r ∧ [0, 1, 0][i]? = some 0)
      ∧ (∀ (r : EntryRef) (c : Nat), UniqueStoreDictionary.build [r] [c] emptyDict
           = some ({ emptyDict with live := [], holdActive := emptyDict.live ++ emptyDict.holdActive }, [])) :=
  build_zero_refcount_callback [10, 20, 30] [0, 1, 0] emptyDict (by decide) (by decide)

theorem remove_eq_some_iff (comp : EntryRef → EntryRef → Bool) (ref : EntryRef)
    (d d2 : Dict) :
    UniqueStoreDictionary.remove comp ref d = some d2 ↔
      (EntryRef.valid ref = true ∧
       d.live[lowerBoundIdx comp ref d.live]? = some ref ∧
       d2 = { d with live := d.live.eraseIdx (lowerBoundIdx comp ref d.live),
                     holdActive := ref :: d.holdActive }) := by
  unfold UniqueStoreDictionary.remove
  cases hv : EntryRef.valid ref with
  | false => simp [hv]
  | true =>
      cases hget : d.live[lowerBoundIdx comp ref d.live]? with
      | none => simp [hv, hget]
      | some k =>
          by_cases hk : k = ref
          · subst hk
            simp [hv, hget]
            exact eq_comm
          · simp [hv, hget, hk]

theorem add_dict_cases (comp : EntryRef → EntryRef → Bool) (alloc : EntryRef) (d : Dict) :
    (UniqueStoreDictionary.add comp alloc d).2.1 = d ∨
    (UniqueStoreDictionary.add comp alloc d).2.1
      = { d with live := insertAt (lowerBoundIdx comp EntryRef.invalid d.live) alloc d.live } := by
  cases hget : d.live[lowerBoundIdx comp EntryRef.invalid d.live]? with
  | none =>
      right
      simp [UniqueStoreDictionary.add, hget]
  | some k =>
      by_cases hc : comp EntryRef.invalid k = true
      · right
        simp [UniqueStoreDictionary.add, hget, hc]
      · left
        simp [UniqueStoreDictionary.add, hget, hc]

/-- C8: `trim_hold_lists X` hands back to the arena exactly the hold-list
entries whose retiring generation is older than `X` (an item retired at
generation `G` is never reclaimed unless `X > G`); `transfer_hold_lists`
moves the active bucket onto the generation-indexed hold structure without
reclaiming anything; and no other facade operation (`add`, `remove`,
`freeze`, `move_entries`, `build`) ever reclaims an item. -/
theorem trim_reclaims_only_older_generations (d : Dict) (X gen : generation_t)
    (item : EntryRef) (comp : EntryRef → EntryRef → Bool) (alloc ref : EntryRef)
    (mv : EntryRef → EntryRef) (refs : List EntryRef) (counts : List Nat) :
    ((UniqueStoreDictionary.trim_hold_lists X d).reclaimed
        = d.reclaimed ++ (d.holdLists.filter (fun p => decide (p.1 < X))).map Prod.snd)
    ∧ ((∀ p ∈ d.holdLists, p.2 = item → X ≤ p.1) →
         item ∉ (d.holdLists.filter (fun p => decide (p.1 < X))).map Prod.snd)
    ∧ (UniqueStoreDictionary.transfer_hold_lists gen d).reclaimed = d.reclaimed
    ∧ (UniqueStoreDictionary.transfer_hold_lists gen d).holdLists
        = d.holdLists ++ d.holdActive.map (fun r => (gen, r))
    ∧ (UniqueStoreDictionary.add comp alloc d).2.1.reclaimed = d.reclaimed
    ∧ (∀ d2, UniqueStoreDictionary.remove comp ref d = some d2 →
         d2.reclaimed = d.reclaimed)
    ∧ (UniqueStoreDictionary.freeze d).reclaimed = d.reclaimed
    ∧ (UniqueStoreDictionary.move_entries mv d).1.reclaimed = d.reclaimed
    ∧ (∀ d2 tr, UniqueStoreDictionary.build refs counts d = some (d2, tr) →
         d2.reclaimed = d.reclaimed) := by
  refine ⟨rfl, ?_, rfl, rfl, ?_, ?_, rfl, rfl, ?_⟩
  · intro hold hmem
    obtain ⟨p, hp, hp2⟩ := List.mem_map.mp hmem
    have hfil := List.mem_filter.mp hp
    have hlt : p.1 < X := of_decide_eq_true hfil.2
    exact absurd (hold p hfil.1 hp2) (Nat.not_le.mpr hlt)
  · rcases add_dict_cases comp alloc d with h | h <;> rw [h]
  · intro d2 h
    obtain ⟨-, -, rfl⟩ := (remove_eq_some_iff comp ref d d2).mp h
    rfl
  · intro d2 tr h
    unfold UniqueStoreDictionary.build at h
    split at h
    · exact absurd h (by simp)
    · split at h
      · exact absurd h (by simp)
      · injection h with h
        obtain rfl := (congrArg Prod.fst h).symm
        rfl

theorem trim_reclaims_only_older_generations_witness :
    (∀ p ∈ ([(5, 7)] : List (generation_t × EntryRef)), p.2 = 7 → 3 ≤ p.1) ∧
    (7 : EntryRef) ∉ ((([(5, 7)] : List (generation_t × EntryRef)).filter
        (fun p => decide (p.1 < 3))).map Prod.snd) :=
  ⟨by decide,
   (trim_reclaims_only_older_generations ⟨[], [], [], [(5, 7)], []⟩ 3 0 7
      (fun _ _ => false) 0 0 (fun r => r) [] []).2.1 (by decide)⟩

theorem applyOp_frozen (val : EntryRef → Int) (d : Dict) (op : DictOp) :
    (applyOp val d op).frozen = d.frozen := by
  cases op with
  | addOp a =>
      show (UniqueStoreDictionary.add (cmpOf val (val a)) a d).2.1.frozen = d.frozen
      rcases add_dict_cases (cmpOf val (val a)) a d with h | h <;> rw [h]
  | removeOp r =>
      show ((UniqueStoreDictionary.remove (cmpOf val (val r)) r d).getD d).frozen = d.frozen
      cases hr : UniqueStoreDictionary.remove (cmpOf val (val r)) r d with
      | none => rfl
      | some d2 =>
          obtain ⟨-, -, rfl⟩ := (remove_eq_some_iff _ _ _ _).mp hr
          rfl

theorem runOps_frozen_eq (val : EntryRef → Int) :
    ∀ (ops : List DictOp) (d : Dict), (runOps val ops d).frozen = d.frozen
  | [], _ => rfl
  | op :: ops, d => by
      show (runOps val ops (applyOp val d op)).frozen = d.frozen
      rw [runOps_frozen_eq val ops (applyOp val d op), applyOp_frozen]

/-- C9: `get_num_uniques` reports the size recorded in the frozen view (the
length of the frozen root's traversal), not the live structure: after any
sequence of `add`/`remove` mutations with no intervening `freeze` it returns
the same value as before, and in the embedding it is a pure observer that
touches no dictionary state. -/
theorem get_num_uniques_reports_frozen_size (val : EntryRef → Int)
    (ops : List DictOp) (d : Dict) :
    UniqueStoreDictionary.get_num_uniques (runOps val ops d)
      = UniqueStoreDictionary.get_num_uniques d
    ∧ UniqueStoreDictionary.get_num_uniques d
      = (UniqueStoreDictionary.foreach_key (UniqueStoreDictionary.get_frozen_root d)).length := by
  constructor
  · show (runOps val ops d).frozen.length = d.frozen.length
    rw [runOps_frozen_eq]
  · rfl

theorem sortedByVal_nodup (val : EntryRef → Int) (l : List EntryRef)
    (h : SortedByVal val l) : l.Nodup :=
  List.Pairwise.imp (fun hab he => absurd (he ▸ hab) (lt_irrefl _)) h

theorem add_dict_cases2 (comp : EntryRef → EntryRef → Bool) (alloc : EntryRef) (d : Dict) :
    (UniqueStoreDictionary.add comp alloc d).2.1 = d ∨
    ((∀ k, d.live[lowerBoundIdx comp EntryRef.invalid d.live]? = some k →
        comp EntryRef.invalid k = true) ∧
     (UniqueStoreDictionary.add comp alloc d).2.1
       = { d with live := insertAt (lowerBoundIdx comp EntryRef.invalid d.live) alloc d.live }) := by
  cases hget : d.live[lowerBoundIdx comp EntryRef.invalid d.live]? with
  | none =>
      right
      constructor
      · intro k hk
        exact absurd hk (by simp)
      · simp [UniqueStoreDictionary.add, hget]
  | some k =>
      by_cases hc : comp EntryRef.invalid k = true
      · right
        constructor
        · intro k2 hk2
          injection hk2 with hk2
          subst hk2
          exact hc
        · simp [UniqueStoreDictionary.add, hget, hc]
      · left
        simp [UniqueStoreDictionary.add, hget, hc]

theorem invalid_not_mem_insertAt (alloc : EntryRef) (l : List EntryRef) (i : Nat)
    (h0 : EntryRef.invalid ∉ l) (ha : alloc ≠ EntryRef.invalid) :
    EntryRef.invalid ∉ insertAt i alloc l := by
  unfold insertAt
  intro hmem
  rcases List.mem_append.mp hmem with hx | hx
  · exact h0 ((List.take_sublist i l).subset hx)
  · rcases List.mem_cons.mp hx with he | hx2
    · exact ha he.symm
    · exact h0 ((List.drop_sublist i l).subset hx2)

theorem insertAt_lb_sorted (val : EntryRef → Int) (pv : Int) (alloc : EntryRef)
    (l : List EntryRef) (hs : SortedByVal val l) (h0 : EntryRef.invalid ∉ l)
    (hv : val alloc = pv)
    (hmiss : ∀ k, l[lowerBoundIdx (cmpOf val pv) EntryRef.invalid l]? = some k →
       pv < val k) :
    SortedByVal val (insertAt (lowerBoundIdx (cmpOf val pv) EntryRef.invalid l) alloc l) := by
  have htake : ∀ x ∈ l.take (lowerBoundIdx (cmpOf val pv) EntryRef.invalid l), val x < pv := by
    intro x hx
    have hx2 := lowerBoundIdx_mem_take (cmpOf val pv) EntryRef.invalid l x hx
    have hxl : x ∈ l := (List.take_sublist _ l).subset hx
    have hx0 : x ≠ EntryRef.invalid := fun he => h0 (he ▸ hxl)
    simp [cmpOf, probeVal, hx0] at hx2
    exact hx2
  have hdrop : ∀ y ∈ l.drop (lowerBoundIdx (cmpOf val pv) EntryRef.invalid l), pv < val y := by
    intro y hy
    cases hget : l[lowerBoundIdx (cmpOf val pv) EntryRef.invalid l]? with
    | none =>
        rw [List.getElem?_eq_none_iff] at hget
        rw [List.drop_eq_nil_of_le hget] at hy
        exact absurd hy (List.not_mem_nil y)
    | some k =>
        obtain ⟨hki, hk⟩ := List.getElem?_eq_some.mp hget
        have hpk : pv < val k := hmiss k hget
        have hsplit : l.drop (lowerBoundIdx (cmpOf val pv) EntryRef.invalid l)
            = k :: l.drop (lowerBoundIdx (cmpOf val pv) EntryRef.invalid l + 1) := by
          rw [← List.getElem_cons_drop l _ hki, hk]
        rw [hsplit] at hy
        rcases List.mem_cons.mp hy with rfl | hy2
        · exact hpk
        · have hpd : List.Pairwise (fun a b => val a < val b)
              (l.drop (lowerBoundIdx (cmpOf val pv) EntryRef.invalid l)) :=
            List.Pairwise.sublist (List.drop_sublist _ l) hs
          rw [hsplit] at hpd
          exact lt_trans hpk ((List.pairwise_cons.mp hpd).1 y hy2)
  show List.Pairwise (fun a b => val a < val b) (_ ++ alloc :: _)
  rw [List.pairwise_append]
  refine ⟨List.Pairwise.sublist (List.take_sublist _ l) hs, ?_, ?_⟩
  · rw [List.pairwise_cons]
    refine ⟨fun y hy => hv ▸ hdrop y hy, List.Pairwise.sublist (List.drop_sublist _ l) hs⟩
  · intro x hx y hy
    rcases List.mem_cons.mp hy with rfl | hy2
    · exact hv.symm ▸ htake x hx
    · exact lt_trans (htake x hx) (hdrop y hy2)

theorem applyOp_inv (val : EntryRef → Int) (d : Dict) (op : DictOp)
    (hop : DictOp.wf op = true) (h : DictInv val d) : DictInv val (applyOp val d op) := by
  cases op with
  | addOp a =>
      have ha : a ≠ EntryRef.invalid := by
        simpa [DictOp.wf, EntryRef.invalid] using hop
      show DictInv val (UniqueStoreDictionary.add (cmpOf val (val a)) a d).2.1
      rcases add_dict_cases2 (cmpOf val (val a)) a d with hd | ⟨hmiss, hd⟩
      · rw [hd]
        exact h
      · rw [hd]
        constructor
        · refine insertAt_lb_sorted val (val a) a d.live h.1 h.2 rfl ?_
          intro k hk
          have hc := hmiss k hk
          have hkmem : k ∈ d.live := mem_of_getElem_some hk
          have hk0 : k ≠ EntryRef.invalid := fun he => h.2 (he ▸ hkmem)
          simp [cmpOf, probeVal, hk0] at hc
          exact hc
        · exact invalid_not_mem_insertAt a d.live _ h.2 ha
  | removeOp r =>
      show DictInv val ((UniqueStoreDictionary.remove (cmpOf val (val r)) r d).getD d)
      cases hr : UniqueStoreDictionary.remove (cmpOf val (val r)) r d with
      | none => exact h
      | some d2 =>
          obtain ⟨-, -, rfl⟩ := (remove_eq_some_iff _ _ _ _).mp hr
          constructor
          · exact List.Pairwise.sublist (List.eraseIdx_sublist _ _) h.1
          · exact fun hm => h.2 ((List.eraseIdx_sublist _ _).subset hm)

theorem runOps_inv (val : EntryRef → Int) :
    ∀ (ops : List DictOp) (d : Dict), ops.all DictOp.wf = true →
      DictInv val d → DictInv val (runOps val ops d)
  | [], _, _, h => h
  | op :: ops, d, hall, h => by
      rw [List.all_cons, Bool.and_eq_true] at hall
      show DictInv val (runOps val ops (applyOp val d op))
      exact runOps_inv val ops (applyOp val d op) hall.2 (applyOp_inv val d op hall.1 h)

/-- C2: for every sequence of well-formed `add`/`remove` operations (under a
comparator induced by the values the arena assigns to handles) applied to an
initially empty dictionary, the ascending traversal of the live structure
yields handles whose denoted values are strictly increasing, and every handle
appears in the index at most once. -/
theorem runOps_live_sorted_and_nodup (val : EntryRef → Int) (ops : List DictOp)
    (hwf : ops.all DictOp.wf = true) :
    SortedByVal val (runOps val ops emptyDict).live
    ∧ (runOps val ops emptyDict).live.Nodup := by
  have h := runOps_inv val ops emptyDict hwf ⟨List.Pairwise.nil, by simp [emptyDict]⟩
  exact ⟨h.1, sortedByVal_nodup val _ h.1⟩

theorem runOps_live_sorted_and_nodup_witness :
    (([DictOp.addOp 5, DictOp.addOp 1, DictOp.addOp 3,
       DictOp.removeOp 3].all DictOp.wf) = true)
    ∧ (SortedByVal (fun n => (n : Int))
        (runOps (fun n => (n : Int))
          [DictOp.addOp 5, DictOp.addOp 1, DictOp.addOp 3, DictOp.removeOp 3]
          emptyDict).live
       ∧ (runOps (fun n => (n : Int))
          [DictOp.addOp 5, DictOp.addOp 1, DictOp.addOp 3, DictOp.removeOp 3]
          emptyDict).live.Nodup) :=
  ⟨by decide,
   runOps_live_sorted_and_nodup (fun n => (n : Int))
     [DictOp.addOp 5, DictOp.addOp 1, DictOp.addOp 3, DictOp.removeOp 3] (by decide)⟩

theorem probeVal_ne (val : EntryRef → Int) (pv : Int) {r : EntryRef}
    (h : r ≠ EntryRef.invalid) : probeVal val pv r = val r := by
  unfold probeVal
  exact if_neg h

theorem lowerBoundIdx_finds_eq (val : EntryRef → Int) (pv : Int) (key : EntryRef)
    (hkey : probeVal val pv key = pv) :
    ∀ (l : List EntryRef) (k : EntryRef), SortedByVal val l → EntryRef.invalid ∉ l →
      k ∈ l → val k = pv →
      l[lowerBoundIdx (cmpOf val pv) key l]? = some k
  | [], k, _, _, hmem, _ => absurd hmem (List.not_mem_nil k)
  | y :: ys, k, hs, h0, hmem, hval => by
      have hy0 : y ≠ EntryRef.invalid := fun he => h0 (he ▸ List.mem_cons_self y ys)
      by_cases hky : k = y
      · subst hky
        have hc : cmpOf val pv k key = false := by
          unfold cmpOf
          rw [probeVal_ne val pv hy0, hkey, hval]
          simp
        simp [lowerBoundIdx, hc]
      · have hmem2 : k ∈ ys := (List.mem_cons.mp hmem).resolve_left hky
        have hlt : val y < pv := hval ▸ (List.pairwise_cons.mp hs).1 k hmem2
        have hc : cmpOf val pv y key = true := by
          unfold cmpOf
          rw [probeVal_ne val pv hy0, hkey]
          exact decide_eq_true hlt
        simp only [lowerBoundIdx, hc, if_true, List.getElem?_cons_succ]
        exact lowerBoundIdx_finds_eq val pv key hkey ys k (List.pairwise_cons.mp hs).2
          (fun hm => h0 (List.mem_cons_of_mem y hm)) hmem2 hval

theorem not_mem_eraseIdx_of_sorted (val : EntryRef → Int) (l : List EntryRef)
    (i : Nat) (k : EntryRef) (hs : SortedByVal val l) (hget : l[i]? = some k) :
    k ∉ l.eraseIdx i := by
  obtain ⟨hi, hk⟩ := List.getElem?_eq_some.mp hget
  have hnd : l.Nodup := sortedByVal_nodup val l hs
  have hsplit : l.take i ++ l[i] :: l.drop (i + 1) = l := by
    rw [List.getElem_cons_drop, List.take_append_drop]
  rw [List.eraseIdx_eq_take_drop_succ]
  intro hmem
  rw [← hsplit] at hnd
  have hmid := (List.nodup_cons.mp (List.nodup_middle.mp hnd)).1
  exact hmid (hk.symm ▸ hmem)

/-- C6: for a well-formed dictionary state (live structure strictly sorted by
denoted value, no invalid handle stored) and any probe value, `find` returns
the existing handle when an entry denoting the probed value is present and
returns the "not found" sentinel `EntryRef()` when no entry denotes the
probed value; `find` is a pure observer, so the dictionary is unchanged in
both cases. -/
theorem find_returns_match_or_sentinel (val : EntryRef → Int) (pv : Int) (d : Dict)
    (hs : SortedByVal val d.live) (h0 : EntryRef.invalid ∉ d.live) :
    (∀ k, k ∈ d.live → val k = pv →
       UniqueStoreDictionary.find (cmpOf val pv) d = k)
    ∧ ((∀ k ∈ d.live, val k ≠ pv) →
       UniqueStoreDictionary.find (cmpOf val pv) d = EntryRef.invalid) := by
  constructor
  · intro k hmem hval
    have hget := lowerBoundIdx_finds_eq val pv EntryRef.invalid rfl d.live k hs h0 hmem hval
    have hk0 : k ≠ EntryRef.invalid := fun he => h0 (he ▸ hmem)
    have hc : cmpOf val pv EntryRef.invalid k = false := by
      simp [cmpOf, probeVal, hk0, hval]
    simp [UniqueStoreDictionary.find, hget, hc]
  · intro hne
    cases hget : d.live[lowerBoundIdx (cmpOf val pv) EntryRef.invalid d.live]? with
    | none => simp [UniqueStoreDictionary.find, hget]
    | some k =>
        have hmem := mem_of_getElem_some hget
        have hk0 : k ≠ EntryRef.invalid := fun he => h0 (he ▸ hmem)
        have hnl := lowerBoundIdx_getElem_eq_false (cmpOf val pv) EntryRef.invalid d.live k hget
        simp [cmpOf, probeVal, hk0] at hnl
        have h2 : pv < val k := lt_of_le_of_ne hnl (Ne.symm (hne k hmem))
        have hc : cmpOf val pv EntryRef.invalid k = true := by
          simp [cmpOf, probeVal, hk0]
          exact h2
        simp [UniqueStoreDictionary.find, hget, hc]

theorem find_returns_match_or_sentinel_witness :
    UniqueStoreDictionary.find (cmpOf (fun n => (n : Int)) 3) ⟨[1, 3, 5], [], [], [], []⟩ = 3 :=
  (find_returns_match_or_sentinel (fun n => (n : Int)) 3 ⟨[1, 3, 5], [], [], [], []⟩
    (by decide) (by decide)).1 3 (by decide) (by decide)

/-- C7: for a well-formed dictionary state holding handle `h`, the frozen
view taken by `freeze` before a subsequent `remove` of `h` still yields `h`
when traversed (and is left untouched by the remove), while the view taken
after the remove does not yield `h`. -/
theorem frozen_view_snapshot_isolation (val : EntryRef → Int) (d : Dict)
    (h : EntryRef) (hs : SortedByVal val d.live) (h0 : EntryRef.invalid ∉ d.live)
    (hmem : h ∈ d.live) :
    ∃ d2, UniqueStoreDictionary.remove (cmpOf val (val h)) h
            (UniqueStoreDictionary.freeze d) = some d2
      ∧ h ∈ UniqueStoreDictionary.foreach_key
          (UniqueStoreDictionary.get_frozen_root (UniqueStoreDictionary.freeze d))
      ∧ UniqueStoreDictionary.get_frozen_root d2
          = UniqueStoreDictionary.get_frozen_root (UniqueStoreDictionary.freeze d)
      ∧ h ∉ UniqueStoreDictionary.foreach_key
          (UniqueStoreDictionary.get_frozen_root
            (UniqueStoreDictionary.freeze d2)) := by
  have hh0 : h ≠ EntryRef.invalid := fun he => h0 (he ▸ hmem)
  have hkey : probeVal val (val h) h = val h := if_neg hh0
  have hget := lowerBoundIdx_finds_eq val (val h) h hkey d.live h hs h0 hmem rfl
  have hv : EntryRef.valid h = true := by
    simp [EntryRef.valid]
    exact hh0
  refine ⟨_, (remove_eq_some_iff _ _ _ _).mpr ⟨hv, hget, rfl⟩, hmem, rfl, ?_⟩
  show h ∉ d.live.eraseIdx (lowerBoundIdx (cmpOf val (val h)) h d.live)
  exact not_mem_eraseIdx_of_sorted val d.live _ h hs hget

theorem frozen_view_snapshot_isolation_witness :
    ∃ d2, UniqueStoreDictionary.remove (cmpOf (fun n => (n : Int)) 3) 3
            (UniqueStoreDictionary.freeze ⟨[1, 3, 5], [], [], [], []⟩) = some d2
      ∧ 3 ∈ UniqueStoreDictionary.foreach_key
          (UniqueStoreDictionary.get_frozen_root
            (UniqueStoreDictionary.freeze ⟨[1, 3, 5], [], [], [], []⟩))
      ∧ UniqueStoreDictionary.get_frozen_root d2
          = UniqueStoreDictionary.get_frozen_root
              (UniqueStoreDictionary.freeze ⟨[1, 3, 5], [], [], [], []⟩)
      ∧ 3 ∉ UniqueStoreDictionary.foreach_key
          (UniqueStoreDictionary.get_frozen_root
            (UniqueStoreDictionary.freeze d2)) :=
  frozen_view_snapshot_isolation (fun n => (n : Int)) ⟨[1, 3, 5], [], [], [], []⟩ 3
    (by decide) (by decide) (by decide)

